import Mathlib

/-!
Verification of the identifier-allocation and write-back caching subsystem of
`joshdurbin/url-shortener`, shallowly embedded in Lean 4.

The development embeds three components of the Go source:

* the code encoder (`internal/cache/mocks/cache.go`, package `shortener`,
  type `CounterGenerator`): `obfuscateValue`, `encodeCounter`, `toBase62`,
  `fromBase62`;
* the counter allocator (`internal/shortener/factory.go`, type
  `CounterCache`): `GetNextCounter`, `SetCounter` and the async writeback
  requests they enqueue;
* the in-memory entry cache (package `memory`, type `Cache`): `Get`, `Set`,
  `IncrementUsage`, `GetDirtyEntries`, `MarkClean`, `LoadData`,
  `syncToDatabase`.

Modelling conventions: Go `uint64` arithmetic is `Nat` with explicit
`% 2 ^ 64` at every operation that can overflow; Go `int64` (and 64-bit
`int`) values are `Int` with two's-complement wraparound applied by
`wrap64` at every arithmetic step the Go code performs; Go maps are either
total functions into `Option` (the counter map, which is only ever indexed)
or association lists (the entry cache, which is also iterated); `time.Time`
is an abstract `Int` timestamp supplied as an explicit `now` argument; the
mutex-serialized methods are pure state transformers, which is faithful
because every Go method body runs entirely under the instance lock.
-/

set_option maxRecDepth 8000

namespace UrlShortener

/-! ### CodeEncoder: package `shortener`, type `CounterGenerator` -/

/-- Base62 characters of the Go constant `base62Chars`:
`0-9`, `a-z`, `A-Z` (case sensitive). -/
def base62Chars : String :=
  "0123456789abcdefghijklmnopqrstuvwxyzABCDEFGHIJKLMNOPQRSTUVWXYZ"

/-- `2 ^ 64`, the modulus of Go `uint64` arithmetic. -/
def W64 : Nat := 2 ^ 64

/-- The fixed multiplier constant of `CounterGenerator` (`0x5DEECE66D`). -/
def multiplier : Nat := 0x5DEECE66D

/-- The fixed salt constant of `CounterGenerator` (`0x9E3779B97F4A7C15`). -/
def salt : Nat := 0x9E3779B97F4A7C15

/-- Go `bits.RotateLeft64 x k` for `0 < k < 64`, on `Nat` with explicit
truncation of the left shift. -/
def rotateLeft64 (x k : Nat) : Nat :=
  ((x <<< k) % W64) ||| (x >>> (64 - k))

/-- Go `bits.Reverse32`: the value whose bits `0..31` are the bits `31..0`
of the argument. -/
def reverse32 (x : Nat) : Nat :=
  (List.range 32).foldl (fun acc i => acc ||| (((x >>> i) &&& 1) <<< (31 - i))) 0

/-- `CounterGenerator.obfuscateValue`: XOR with the salt, multiply by the
odd multiplier (mod `2 ^ 64`), rotate left 21, XOR with itself rotated
left 32, then recombine the bit-reversed lower half and the upper half. -/
def obfuscateValue (value : Nat) : Nat :=
  let r1 := value ^^^ salt
  let r2 := (r1 * multiplier) % W64
  let r3 := rotateLeft64 r2 21
  let r4 := r3 ^^^ rotateLeft64 r3 32
  let lower := r4 &&& 0xFFFFFFFF
  let upper := r4 >>> 32
  ((reverse32 lower) <<< 32) ||| upper

/-- The digit-accumulation loop of `CounterGenerator.toBase62`: repeatedly
prepend `base62Chars[num % 62]` and divide by 62 until the number is 0.
The first argument is a structural termination bound; any bound of at
least `num` computes the loop exactly (`toBase62Loop_fuel_irrel`). -/
def toBase62Loop : Nat → Nat → List Char
  | 0, _ => []
  | fuel + 1, num =>
    if num = 0 then []
    else toBase62Loop fuel (num / 62) ++ [base62Chars.data.getD (num % 62) ' ']

/-- The digit list of `num`, most significant first: the loop of
`CounterGenerator.toBase62` run to completion. -/
def toBase62Digits (num : Nat) : List Char :=
  toBase62Loop num num

/-- `CounterGenerator.toBase62` (strings modelled as `List Char`). -/
def toBase62 (num : Nat) : List Char :=
  if num = 0 then ['0'] else toBase62Digits num

/-- The per-character branch of `CounterGenerator.fromBase62`; characters
outside the alphabet contribute the zero value of the uninitialized Go
variable. -/
def fromBase62Digit (c : Char) : Nat :=
  if '0' ≤ c ∧ c ≤ '9' then c.toNat - '0'.toNat
  else if 'a' ≤ c ∧ c ≤ 'z' then c.toNat - 'a'.toNat + 10
  else if 'A' ≤ c ∧ c ≤ 'Z' then c.toNat - 'A'.toNat + 36
  else 0

/-- `CounterGenerator.fromBase62`. -/
def fromBase62 (s : List Char) : Nat :=
  s.foldl (fun result c => result * 62 + fromBase62Digit c) 0

/-- `minVal` of `encodeCounter`: `62 ^ 6`, the least 7-digit base62 value. -/
def minVal : Nat := 56800235584

/-- `maxVal` of `encodeCounter`: `62 ^ 7 - 1`, the greatest 7-digit base62
value. -/
def maxVal : Nat := 3521614606207

/-- `CounterGenerator.encodeCounter`: obfuscate, reduce into
`[minVal, maxVal]`, convert to base62. -/
def encodeCounter (counter : Nat) : List Char :=
  let transformed := obfuscateValue counter
  let rangeSize := maxVal - minVal + 1
  let finalValue := (transformed % rangeSize) + minVal
  toBase62 finalValue

/-- Step 5 of the spec's encoding algorithm as §4.2 words it: reverse the
bit order of the lower 32 bits in place, leaving the upper 32 bits
untouched, and recombine. -/
def specStep5Untouched (x : Nat) : Nat :=
  ((x >>> 32) <<< 32) ||| reverse32 (x &&& 0xFFFFFFFF)

/-- The spec's seven-step encoder (§4.2, steps 1-7) taken at its word,
with step 5 leaving the upper 32 bits untouched. -/
def specEncodeSeven (v : Nat) : List Char :=
  let s1 := v ^^^ salt
  let s2 := (s1 * multiplier) % W64
  let s3 := rotateLeft64 s2 21
  let s4 := s3 ^^^ rotateLeft64 s3 32
  let s5 := specStep5Untouched s4
  toBase62 (s5 % (62 ^ 7 - 62 ^ 6) + 62 ^ 6)

/-- Step 5 as the code actually performs it: the bit-reversed lower half
becomes the upper half and the previous upper half becomes the lower
half. -/
def specStep5Swapped (x : Nat) : Nat :=
  ((reverse32 (x &&& 0xFFFFFFFF)) <<< 32) ||| (x >>> 32)

/-- The spec's seven-step encoder with step 5 amended to the half-swapping
recombination the code performs. -/
def specEncodeSevenSwapped (v : Nat) : List Char :=
  let s1 := v ^^^ salt
  let s2 := (s1 * multiplier) % W64
  let s3 := rotateLeft64 s2 21
  let s4 := s3 ^^^ rotateLeft64 s3 32
  let s5 := specStep5Swapped s4
  toBase62 (s5 % (62 ^ 7 - 62 ^ 6) + 62 ^ 6)

/-- The word after step 4 of the obfuscation pipeline. -/
def step4Word (value : Nat) : Nat :=
  let r1 := value ^^^ salt
  let r2 := (r1 * multiplier) % W64
  let r3 := rotateLeft64 r2 21
  r3 ^^^ rotateLeft64 r3 32

/-! ### CounterAllocator: `internal/shortener/factory.go`, type `CounterCache` -/

/-- Two's-complement wraparound of Go `int64` arithmetic: the unique
representative of `x` modulo `2 ^ 64` in `[-2 ^ 63, 2 ^ 63)`. Every
arithmetic step the Go code performs on `int64` values passes through
this function. -/
def wrap64 (x : Int) : Int :=
  (x + 2 ^ 63) % 2 ^ 64 - 2 ^ 63

/-- One per-key counter state of `CounterCache` (Go struct `cacheEntry`):
`current` is the last value issued, `allocated` the reserved ceiling. -/
structure cacheEntry where
  current : Int
  allocated : Int
  dirty : Bool
deriving DecidableEq

/-- The `CounterCache` state: the in-memory counter map, the allocation
step (`jumpAhead`), the durable counter store read by `db.GetCounter`
(`none` models `sql.ErrNoRows`), and the writeback requests enqueued so
far, in order. The single worker goroutine performs the enqueued writes
in order; the scenarios under study enqueue far fewer than the channel
capacity of 100, so the drop-on-full branch of `asyncWriteback` never
fires and is not modelled. -/
structure CounterCache where
  counters : String → Option cacheEntry
  jumpAhead : Int
  db : String → Option Int
  writebacks : List (String × Int)

/-- `CounterCache.GetNextCounter`: initialize an unseen key from the
durable store (`sql.ErrNoRows` reads as 0) and enqueue a writeback of the
fresh ceiling; bump the ceiling by `jumpAhead` when `current` has reached
it, enqueueing a writeback of the new ceiling; then increment `current`
and return it. DB reads are modelled as succeeding (value or no-rows);
the synchronous DB-error return path is outside the claims studied. -/
def GetNextCounter (c : CounterCache) (key : String) : Int × CounterCache :=
  let init :=
    match c.counters key with
    | some entry => (entry, c.writebacks)
    | none =>
      let dbValue := match c.db key with | some v => v | none => 0
      (({ current := dbValue, allocated := wrap64 (dbValue + c.jumpAhead),
          dirty := true } : cacheEntry),
        c.writebacks ++ [(key, wrap64 (dbValue + c.jumpAhead))])
  let entry0 := init.1
  let bumped :=
    if entry0.allocated ≤ entry0.current then
      (({ current := entry0.allocated,
          allocated := wrap64 (entry0.allocated + c.jumpAhead),
          dirty := true } : cacheEntry),
        init.2 ++ [(key, wrap64 (entry0.allocated + c.jumpAhead))])
    else (entry0, init.2)
  let final : cacheEntry :=
    { current := wrap64 (bumped.1.current + 1), allocated := bumped.1.allocated,
      dirty := bumped.1.dirty }
  (final.current,
    { c with
      counters := fun k => if k = key then some final else c.counters k
      writebacks := bumped.2 })

/-- `CounterCache.SetCounter`: administrative override; replaces the
key's entry with `current = value`, `allocated = value + jumpAhead`,
dirty, and enqueues a writeback of the new ceiling. -/
def SetCounter (c : CounterCache) (key : String) (value : Int) : CounterCache :=
  { c with
    counters := fun k =>
      if k = key then
        some { current := value, allocated := wrap64 (value + c.jumpAhead),
               dirty := true }
      else c.counters k
    writebacks := c.writebacks ++ [(key, wrap64 (value + c.jumpAhead))] }

/-- `n` successive `GetNextCounter` calls for `key`: the returned values
in order, and the final state. -/
def getNextN (c : CounterCache) (key : String) : Nat → List Int × CounterCache
  | 0 => ([], c)
  | n + 1 =>
    let step := GetNextCounter c key
    let rest := getNextN step.2 key n
    (step.1 :: rest.1, rest.2)

/-- The prior high-water mark for `key`: the last value issued
(`entry.current`), or the durable baseline when the key is unseen. -/
def highWater (c : CounterCache) (key : String) : Int :=
  match c.counters key with
  | some entry => entry.current
  | none => match c.db key with | some v => v | none => 0

/-- The spec §3 invariant `current ≤ ceiling` at one key. -/
def entryInv (c : CounterCache) (key : String) : Prop :=
  ∀ e, c.counters key = some e → e.current ≤ e.allocated

/-- The spec §3 invariant `current ≤ ceiling` at every key. -/
def cacheInv (c : CounterCache) : Prop :=
  ∀ key, entryInv c key

/-- Per-key ceiling comparison between two states: entries are never
deleted and their ceilings do not decrease. -/
def ceilingLE (c c' : CounterCache) : Prop :=
  ∀ key e, c.counters key = some e →
    ∃ e', c'.counters key = some e' ∧ e.allocated ≤ e'.allocated

/-- A fresh allocator with `jumpAhead = 1` over an empty durable store. -/
def counterDemo0 : CounterCache :=
  { counters := fun _ => none, jumpAhead := 1, db := fun _ => none, writebacks := [] }

/-- A fresh allocator with `jumpAhead = 10` over an empty durable store
(the spec §8 scenario). -/
def counterDemoStep10 : CounterCache :=
  { counters := fun _ => none, jumpAhead := 10, db := fun _ => none, writebacks := [] }

/-- An allocator whose key `"k"` sits at the `int64` boundary:
`current = allocated = 2 ^ 63 - 1`, step 1. -/
def counterDemoMax : CounterCache :=
  { counters := fun k =>
      if k = "k" then
        some { current := 2 ^ 63 - 1, allocated := 2 ^ 63 - 1, dirty := false }
      else none
    jumpAhead := 1
    db := fun _ => none
    writebacks := [] }

/-! ### EntryCache: package `memory`, type `Cache` -/

/-- `domain.CacheEntry`: the metadata stored per short code.
`LastUsedAt` (`time.Time`) is modelled as an abstract `Int` timestamp. -/
structure CacheEntry where
  originalURL : String
  usageCount : Int
  lastUsedAt : Int
  dirty : Bool
deriving DecidableEq

/-- The field-by-field copy the Go cache makes of every entry crossing
its API boundary (aliasing is invisible in a functional model, so this
is the identity on values). -/
def copyEntry (e : CacheEntry) : CacheEntry :=
  { originalURL := e.originalURL, usageCount := e.usageCount,
    lastUsedAt := e.lastUsedAt, dirty := e.dirty }

/-- `memory.Cache`: the backing Go map modelled as an association list
(map iteration order is unspecified in Go and immaterial here). -/
structure MemCache where
  data : List (String × CacheEntry)
deriving DecidableEq

namespace MemCache

/-- `Cache.Get`: look up by short code, returning a copy. -/
def Get (c : MemCache) (shortCode : String) : Option CacheEntry :=
  (c.data.find? (fun p => p.1 == shortCode)).map (fun p => copyEntry p.2)

/-- `Cache.IncrementUsage`: if present, bump `usageCount` (Go `int`
increment, wrapping at the `int64` boundary), stamp `lastUsedAt` with the
current time, and mark dirty; no-op when absent. The Go method always
returns a nil error, modelled by totality. -/
def IncrementUsage (c : MemCache) (shortCode : String) (now : Int) : MemCache :=
  { data := c.data.map (fun p =>
      if p.1 == shortCode then
        (p.1,
          { p.2 with
            usageCount := wrap64 (p.2.usageCount + 1)
            lastUsedAt := now
            dirty := true })
      else p) }

/-- `Cache.GetDirtyEntries`: copies of all entries currently dirty. -/
def GetDirtyEntries (c : MemCache) : List (String × CacheEntry) :=
  (c.data.filter (fun p => p.2.dirty)).map (fun p => (p.1, copyEntry p.2))

/-- `Cache.MarkClean`: clear the dirty flag if present; no-op if absent. -/
def MarkClean (c : MemCache) (shortCode : String) : MemCache :=
  { data := c.data.map (fun p =>
      if p.1 == shortCode then (p.1, { p.2 with dirty := false }) else p) }

/-- `Cache.LoadData`: discard all existing contents and store a copy of
every input entry. -/
def LoadData (_c : MemCache) (input : List (String × CacheEntry)) : MemCache :=
  { data := input.map (fun p => (p.1, copyEntry p.2)) }

/-- `Cache.syncToDatabase`: collect the dirty entries; do nothing when
there are none; invoke `syncFn` on the batch; abort the cycle if it
fails, otherwise mark every batch entry clean. `syncFn` returning `true`
models a nil error. -/
def syncToDatabase (c : MemCache) (syncFn : List (String × CacheEntry) → Bool) :
    MemCache :=
  let dirtyEntries := GetDirtyEntries c
  if dirtyEntries.length = 0 then c
  else if syncFn dirtyEntries then
    (dirtyEntries.map Prod.fst).foldl MarkClean c
  else c

end MemCache

/-- A one-entry cache holding a clean entry, for witnesses. -/
def memDemo : MemCache :=
  ⟨[("abc", ⟨"https://example.com", 3, 5, false⟩)]⟩

/-- A one-entry cache holding a dirty entry, for witnesses. -/
def memDirtyDemo : MemCache :=
  ⟨[("a", ⟨"https://a.example", 1, 0, true⟩)]⟩

/-- A prior cache and a bulk-load input carrying a dirty entry, for the
`LoadData` counterexample. -/
def memLoadInput : List (String × CacheEntry) :=
  [("a", ⟨"u", 3, 5, true⟩)]

/-- A cache whose entry sits at the `int64` boundary:
`usageCount = 2 ^ 63 - 1`. -/
def memMaxDemo : MemCache :=
  ⟨[("m", ⟨"u", 2 ^ 63 - 1, 0, false⟩)]⟩

/-! ### Base62 groundwork -/

theorem toBase62Loop_fuel_irrel :
    ∀ f₁ f₂ num : Nat, num ≤ f₁ → num ≤ f₂ →
      toBase62Loop f₁ num = toBase62Loop f₂ num := by
  intro f₁
  induction f₁ with
  | zero =>
    intro f₂ num h₁ _
    interval_cases num
    cases f₂ <;> simp [toBase62Loop]
  | succ f ih =>
    intro f₂ num h₁ h₂
    by_cases hz : num = 0
    · subst hz; cases f₂ <;> simp [toBase62Loop]
    · have hpos : 0 < num := Nat.pos_of_ne_zero hz
      obtain ⟨g, rfl⟩ : ∃ g, f₂ = g + 1 :=
        ⟨f₂ - 1, by omega⟩
      simp only [toBase62Loop, if_neg hz]
      have hdiv : num / 62 < num := Nat.div_lt_self hpos (by norm_num)
      rw [ih g (num / 62) (by omega) (by omega)]

theorem toBase62Digits_eq (num : Nat) :
    toBase62Digits num =
      if num = 0 then []
      else toBase62Digits (num / 62) ++ [base62Chars.data.getD (num % 62) ' '] := by
  by_cases hz : num = 0
  · subst hz; rfl
  · have hpos : 0 < num := Nat.pos_of_ne_zero hz
    obtain ⟨n, rfl⟩ : ∃ n, num = n + 1 := ⟨num - 1, by omega⟩
    show toBase62Loop (n + 1) (n + 1) = _
    simp only [toBase62Loop, if_neg hz]
    have hdiv : (n + 1) / 62 < n + 1 := Nat.div_lt_self hpos (by norm_num)
    rw [toBase62Loop_fuel_irrel n ((n + 1) / 62) ((n + 1) / 62) (by omega) le_rfl]
    rfl

theorem fromBase62_append_singleton (l : List Char) (c : Char) :
    fromBase62 (l ++ [c]) = fromBase62 l * 62 + fromBase62Digit c := by
  simp [fromBase62, List.foldl_append]

theorem fromBase62Digit_getD :
    ∀ d : Nat, d < 62 → fromBase62Digit (base62Chars.data.getD d ' ') = d := by
  decide

theorem base62Chars_getD_mem :
    ∀ d : Nat, d < 62 → base62Chars.data.getD d ' ' ∈ base62Chars.data := by
  decide

theorem fromBase62_toBase62Digits (num : Nat) :
    fromBase62 (toBase62Digits num) = num := by
  induction num using Nat.strong_induction_on with
  | _ num ih =>
    rw [toBase62Digits_eq]
    by_cases hz : num = 0
    · simp [hz, fromBase62]
    · have hpos : 0 < num := Nat.pos_of_ne_zero hz
      have hdiv : num / 62 < num := Nat.div_lt_self hpos (by norm_num)
      rw [if_neg hz, fromBase62_append_singleton, ih (num / 62) hdiv,
        fromBase62Digit_getD (num % 62) (Nat.mod_lt num (by norm_num))]
      omega

theorem toBase62Digits_length :
    ∀ k num : Nat, 62 ^ k ≤ num → num < 62 ^ (k + 1) →
      (toBase62Digits num).length = k + 1 := by
  intro k
  induction k with
  | zero =>
    intro num h₁ h₂
    rw [toBase62Digits_eq, if_neg (by omega)]
    have : num / 62 = 0 := Nat.div_eq_of_lt (by simpa using h₂)
    simp [this, toBase62Digits, toBase62Loop]
  | succ k ih =>
    intro num h₁ h₂
    have hz : num ≠ 0 := by
      have hp : 0 < 62 ^ (k + 1) := pow_pos (by norm_num) (k + 1)
      omega
    rw [toBase62Digits_eq, if_neg hz, List.length_append]
    have hlow : 62 ^ k ≤ num / 62 := by
      rw [Nat.le_div_iff_mul_le (by norm_num)]
      calc 62 ^ k * 62 = 62 ^ (k + 1) := by ring
        _ ≤ num := h₁
    have hhigh : num / 62 < 62 ^ (k + 1) := by
      rw [Nat.div_lt_iff_lt_mul (by norm_num)]
      calc num < 62 ^ (k + 2) := h₂
        _ = 62 ^ (k + 1) * 62 := by ring
    rw [ih (num / 62) hlow hhigh]
    rfl

theorem toBase62Digits_mem (num : Nat) :
    ∀ c ∈ toBase62Digits num, c ∈ base62Chars.data := by
  induction num using Nat.strong_induction_on with
  | _ num ih =>
    intro c hc
    rw [toBase62Digits_eq] at hc
    by_cases hz : num = 0
    · simp [hz] at hc
    · have hpos : 0 < num := Nat.pos_of_ne_zero hz
      have hdiv : num / 62 < num := Nat.div_lt_self hpos (by norm_num)
      rw [if_neg hz, List.mem_append] at hc
      rcases hc with hc | hc
      · exact ih (num / 62) hdiv c hc
      · rw [List.mem_singleton] at hc
        subst hc
        exact base62Chars_getD_mem (num % 62) (Nat.mod_lt num (by norm_num))

/-! ### Bitwise groundwork for the obfuscation pipeline -/

theorem shiftRight_le_self (x n : Nat) : x >>> n ≤ x := by
  rw [Nat.shiftRight_eq_div_pow]
  exact Nat.div_le_self _ _

theorem xor_div_two_pow (x y n : Nat) :
    (x ^^^ y) / 2 ^ n = x / 2 ^ n ^^^ y / 2 ^ n := by
  refine Nat.eq_of_testBit_eq fun i => ?_
  simp only [← Nat.shiftRight_eq_div_pow, Nat.testBit_shiftRight, Nat.testBit_xor]

theorem xor_mod_two_pow (x y n : Nat) :
    (x ^^^ y) % 2 ^ n = x % 2 ^ n ^^^ y % 2 ^ n := by
  refine Nat.eq_of_testBit_eq fun i => ?_
  simp only [Nat.testBit_mod_two_pow, Nat.testBit_xor]
  cases h : decide (i < n) <;> simp

theorem lor_div_two_pow (x y n : Nat) :
    (x ||| y) / 2 ^ n = x / 2 ^ n ||| y / 2 ^ n := by
  refine Nat.eq_of_testBit_eq fun i => ?_
  simp only [← Nat.shiftRight_eq_div_pow, Nat.testBit_shiftRight, Nat.testBit_lor]

theorem lor_mod_two_pow (x y n : Nat) :
    (x ||| y) % 2 ^ n = x % 2 ^ n ||| y % 2 ^ n := by
  refine Nat.eq_of_testBit_eq fun i => ?_
  simp only [Nat.testBit_mod_two_pow, Nat.testBit_lor]
  cases h : decide (i < n) <;> simp

theorem reverse32_lt (x : Nat) : reverse32 x < 2 ^ 32 := by
  have key : ∀ (l : List Nat) (acc : Nat), acc < 2 ^ 32 →
      l.foldl (fun acc i => acc ||| (((x >>> i) &&& 1) <<< (31 - i))) acc < 2 ^ 32 := by
    intro l
    induction l with
    | nil => intro acc h; simpa using h
    | cons i t ih =>
      intro acc h
      refine ih _ (Nat.or_lt_two_pow h ?_)
      have hb : (x >>> i) &&& 1 ≤ 1 := Nat.and_le_right
      calc ((x >>> i) &&& 1) <<< (31 - i) = ((x >>> i) &&& 1) * 2 ^ (31 - i) :=
            Nat.shiftLeft_eq _ _
        _ ≤ 1 * 2 ^ 31 := by
            refine Nat.mul_le_mul hb (Nat.pow_le_pow_right (by norm_num) ?_)
            omega
        _ < 2 ^ 32 := by norm_num
  exact key _ 0 (by norm_num)

theorem step4Word_lt (value : Nat) : step4Word value < 2 ^ 64 := by
  unfold step4Word rotateLeft64 W64
  refine Nat.xor_lt_two_pow ?_ ?_ <;>
    refine Nat.or_lt_two_pow (Nat.mod_lt _ (by norm_num)) ?_
  · calc (((value ^^^ salt) * multiplier) % 2 ^ 64) >>> (64 - 21)
        ≤ ((value ^^^ salt) * multiplier) % 2 ^ 64 := shiftRight_le_self _ _
      _ < 2 ^ 64 := Nat.mod_lt _ (by norm_num)
  · calc (_ : Nat) >>> (64 - 32) ≤ _ := shiftRight_le_self _ _
      _ < 2 ^ 64 := Nat.or_lt_two_pow (Nat.mod_lt _ (by norm_num)) (by
          calc (((value ^^^ salt) * multiplier) % 2 ^ 64) >>> (64 - 21)
              ≤ ((value ^^^ salt) * multiplier) % 2 ^ 64 := shiftRight_le_self _ _
            _ < 2 ^ 64 := Nat.mod_lt _ (by norm_num))

/-- Rotating a 64-bit word left by 32 swaps its halves. -/
theorem rotateLeft64_32_mod (t : Nat) (ht : t < 2 ^ 64) :
    rotateLeft64 t 32 % 2 ^ 32 = t / 2 ^ 32 ∧
    rotateLeft64 t 32 / 2 ^ 32 = t % 2 ^ 32 := by
  have hshift : (t <<< 32) % W64 = (t % 2 ^ 32) * 2 ^ 32 := by
    rw [Nat.shiftLeft_eq, W64, show (2 : Nat) ^ 64 = 2 ^ 32 * 2 ^ 32 by norm_num,
      Nat.mul_mod_mul_right]
  have hdivhi : t / 2 ^ 32 < 2 ^ 32 := by
    rw [Nat.div_lt_iff_lt_mul (by norm_num)]
    calc t < 2 ^ 64 := ht
      _ = 2 ^ 32 * 2 ^ 32 := by norm_num
  constructor
  · rw [rotateLeft64, lor_mod_two_pow, hshift, Nat.mul_mod_left,
      Nat.shiftRight_eq_div_pow]
    show 0 ||| t / 2 ^ 32 % 2 ^ 32 = t / 2 ^ 32
    rw [Nat.mod_eq_of_lt hdivhi, Nat.zero_or]
  · rw [rotateLeft64, lor_div_two_pow, hshift, Nat.mul_div_cancel _ (by norm_num),
      Nat.shiftRight_eq_div_pow, Nat.div_div_eq_div_mul]
    have : t / (2 ^ 32 * 2 ^ 32) = 0 := Nat.div_eq_of_lt (by
      calc t < 2 ^ 64 := ht
        _ = 2 ^ 32 * 2 ^ 32 := by norm_num)
    rw [this, Nat.or_zero]

/-- After step 4 the two 32-bit halves of the word coincide. -/
theorem step4Word_halves (value : Nat) :
    step4Word value % 2 ^ 32 = step4Word value / 2 ^ 32 := by
  have ht : (rotateLeft64 (((value ^^^ salt) * multiplier) % W64) 21) < 2 ^ 64 := by
    unfold rotateLeft64 W64
    refine Nat.or_lt_two_pow (Nat.mod_lt _ (by norm_num)) ?_
    calc (((value ^^^ salt) * multiplier) % 2 ^ 64) >>> (64 - 21)
        ≤ ((value ^^^ salt) * multiplier) % 2 ^ 64 := shiftRight_le_self _ _
      _ < 2 ^ 64 := Nat.mod_lt _ (by norm_num)
  show (_ ^^^ rotateLeft64 _ 32) % 2 ^ 32 = (_ ^^^ rotateLeft64 _ 32) / 2 ^ 32
  rw [xor_mod_two_pow, xor_div_two_pow,
    (rotateLeft64_32_mod _ ht).1, (rotateLeft64_32_mod _ ht).2]
  exact Nat.xor_comm _ _

/-- `obfuscateValue` written through `step4Word`: the bit-reversed common
half on top, the common half below. -/
theorem obfuscateValue_as_halves (value : Nat) :
    obfuscateValue value =
      (reverse32 (step4Word value % 2 ^ 32)) <<< 32 ||| step4Word value % 2 ^ 32 := by
  show (reverse32 (step4Word value &&& 0xFFFFFFFF)) <<< 32 ||| step4Word value >>> 32 =
    (reverse32 (step4Word value % 2 ^ 32)) <<< 32 ||| step4Word value % 2 ^ 32
  rw [show (0xFFFFFFFF : Nat) = 2 ^ 32 - 1 from rfl,
    Nat.and_pow_two_sub_one_eq_mod, Nat.shiftRight_eq_div_pow,
    ← step4Word_halves]

theorem obfuscateValue_mod (value : Nat) :
    obfuscateValue value % 2 ^ 32 = step4Word value % 2 ^ 32 := by
  rw [obfuscateValue_as_halves, lor_mod_two_pow, Nat.shiftLeft_eq,
    Nat.mul_mod_left, Nat.zero_or,
    Nat.mod_eq_of_lt (Nat.mod_lt _ (by norm_num))]

theorem obfuscateValue_div (value : Nat) :
    obfuscateValue value / 2 ^ 32 = reverse32 (step4Word value % 2 ^ 32) := by
  rw [obfuscateValue_as_halves, lor_div_two_pow, Nat.shiftLeft_eq,
    Nat.mul_div_cancel _ (by norm_num),
    Nat.div_eq_of_lt (Nat.mod_lt _ (by norm_num)), Nat.or_zero]

theorem wrap64_eq (x : Int) (h1 : -(2 ^ 63) ≤ x) (h2 : x < 2 ^ 63) :
    wrap64 x = x := by
  unfold wrap64
  omega

theorem GetNextCounter_step (c : CounterCache) (key : String)
    (hstep : 1 ≤ c.jumpAhead) (hinv : entryInv c key)
    (hlow : -(2 ^ 63) ≤ highWater c key)
    (hsafe : highWater c key + 1 + c.jumpAhead ≤ 2 ^ 63) :
    (GetNextCounter c key).1 = highWater c key + 1 ∧
    highWater (GetNextCounter c key).2 key = highWater c key + 1 ∧
    entryInv (GetNextCounter c key).2 key ∧
    (GetNextCounter c key).2.jumpAhead = c.jumpAhead ∧
    (GetNextCounter c key).2.db = c.db := by
  cases hc : c.counters key with
  | none =>
    cases hdb : c.db key with
    | none =>
      have hW : highWater c key = 0 := by simp [highWater, hc, hdb]
      rw [hW] at hlow hsafe ⊢
      have w1 : wrap64 c.jumpAhead = c.jumpAhead := wrap64_eq _ (by omega) (by omega)
      have hbv : ¬ (c.jumpAhead ≤ (0 : Int)) := by omega
      have w2 : wrap64 (1 : Int) = 1 := wrap64_eq _ (by omega) (by omega)
      simp [GetNextCounter, highWater, entryInv, hc, hdb, w1, hbv, w2]
      all_goals omega
    | some v =>
      have hW : highWater c key = v := by simp [highWater, hc, hdb]
      rw [hW] at hlow hsafe ⊢
      have w1 : wrap64 (v + c.jumpAhead) = v + c.jumpAhead :=
        wrap64_eq _ (by omega) (by omega)
      have hbv : ¬ (v + c.jumpAhead ≤ v) := by omega
      have w2 : wrap64 (v + 1) = v + 1 := wrap64_eq _ (by omega) (by omega)
      simp [GetNextCounter, highWater, entryInv, hc, hdb, w1, hbv, w2]
      all_goals omega
  | some e =>
    have hW : highWater c key = e.current := by simp [highWater, hc]
    have hce := hinv e hc
    rw [hW] at hlow hsafe ⊢
    by_cases hbump : e.allocated ≤ e.current
    · have heq : e.current = e.allocated := le_antisymm hce hbump
      have w1 : wrap64 (e.allocated + c.jumpAhead) = e.allocated + c.jumpAhead :=
        wrap64_eq _ (by omega) (by omega)
      have w2 : wrap64 (e.allocated + 1) = e.allocated + 1 :=
        wrap64_eq _ (by omega) (by omega)
      simp [GetNextCounter, highWater, entryInv, hc, hbump, w1, w2]
      all_goals constructor <;> omega
    · have w2 : wrap64 (e.current + 1) = e.current + 1 :=
        wrap64_eq _ (by omega) (by omega)
      simp [GetNextCounter, highWater, entryInv, hc, hbump, w2]
      all_goals omega

theorem copyEntry_eq (e : CacheEntry) : copyEntry e = e := rfl

namespace MemCache

theorem LoadData_data (c : MemCache) (input : List (String × CacheEntry)) :
    (LoadData c input).data = input := by
  simp [LoadData, copyEntry_eq]

theorem find?_map_ifkey (data : List (String × CacheEntry)) (k : String)
    (g : String × CacheEntry → CacheEntry) :
    (data.map (fun p => if p.1 == k then (p.1, g p) else p)).find?
        (fun p => p.1 == k) =
      (data.find? (fun p => p.1 == k)).map (fun p => (p.1, g p)) := by
  induction data with
  | nil => rfl
  | cons p t ih =>
    simp only [List.map_cons]
    by_cases hpk : p.1 = k
    · have hb : (p.1 == k) = true := beq_iff_eq.mpr hpk
      rw [hb]
      simp only [if_true, List.find?_cons, hb]
      rfl
    · have hb : (p.1 == k) = false := beq_eq_false_iff_ne.mpr hpk
      rw [hb]
      simp only [Bool.false_eq_true, if_false, List.find?_cons, hb, ih]

theorem find?_map_ifkey_ne (data : List (String × CacheEntry)) (k k' : String)
    (hne : k' ≠ k) (g : String × CacheEntry → CacheEntry) :
    (data.map (fun p => if p.1 == k then (p.1, g p) else p)).find?
        (fun p => p.1 == k') =
      data.find? (fun p => p.1 == k') := by
  induction data with
  | nil => rfl
  | cons p t ih =>
    simp only [List.map_cons]
    by_cases hpk : p.1 = k
    · have hb : (p.1 == k) = true := beq_iff_eq.mpr hpk
      have hp' : (p.1 == k') = false :=
        beq_eq_false_iff_ne.mpr (fun h => hne (h ▸ hpk ▸ rfl))
      rw [hb]
      simp only [if_true, List.find?_cons, hp', ih]
    · have hb : (p.1 == k) = false := beq_eq_false_iff_ne.mpr hpk
      rw [hb]
      by_cases hp' : p.1 = k'
      · have hb' : (p.1 == k') = true := beq_iff_eq.mpr hp'
        simp only [Bool.false_eq_true, if_false, List.find?_cons, hb']
      · have hb' : (p.1 == k') = false := beq_eq_false_iff_ne.mpr hp'
        simp only [Bool.false_eq_true, if_false, List.find?_cons, hb', ih]

theorem Get_MarkClean_self (c : MemCache) (k : String) :
    (c.MarkClean k).Get k = (c.Get k).map (fun e => { e with dirty := false }) := by
  unfold Get MarkClean
  rw [find?_map_ifkey c.data k (fun q => { q.2 with dirty := false })]
  cases c.data.find? (fun p => p.1 == k) <;> rfl

theorem Get_MarkClean_other (c : MemCache) (k k' : String) (hne : k' ≠ k) :
    (c.MarkClean k).Get k' = c.Get k' := by
  unfold Get MarkClean
  rw [find?_map_ifkey_ne c.data k k' hne (fun q => { q.2 with dirty := false })]

theorem Get_foldl_MarkClean_not_mem :
    ∀ (ks : List String) (c : MemCache) (k : String), k ∉ ks →
      (ks.foldl MarkClean c).Get k = c.Get k := by
  intro ks
  induction ks with
  | nil => intro c k _; rfl
  | cons k₀ ks ih =>
    intro c k hk
    rw [List.foldl_cons, ih (c.MarkClean k₀) k (fun h => hk (List.mem_cons_of_mem _ h)),
      Get_MarkClean_other c k₀ k (fun h => hk (h ▸ List.mem_cons_self _ _))]

theorem Get_foldl_MarkClean_mem :
    ∀ (ks : List String) (c : MemCache) (k : String), k ∈ ks →
      (ks.foldl MarkClean c).Get k = (c.Get k).map (fun e => { e with dirty := false }) := by
  intro ks
  induction ks with
  | nil => intro c k hk; simp at hk
  | cons k₀ ks ih =>
    intro c k hk
    rw [List.foldl_cons]
    by_cases hmem : k ∈ ks
    · rw [ih (c.MarkClean k₀) k hmem]
      by_cases hk₀ : k = k₀
      · subst hk₀
        rw [Get_MarkClean_self, Option.map_map]
        cases c.Get k <;> rfl
      · rw [Get_MarkClean_other c k₀ k hk₀]
    · have hk₀ : k = k₀ := by
        rcases List.mem_cons.mp hk with h | h
        · exact h
        · exact absurd h hmem
      subst hk₀
      rw [Get_foldl_MarkClean_not_mem ks (c.MarkClean k) k hmem, Get_MarkClean_self]

theorem GetDirtyEntries_mem_get (c : MemCache) (k : String) (e : CacheEntry)
    (h : (k, e) ∈ c.GetDirtyEntries) : ∃ e₀, c.Get k = some e₀ := by
  unfold GetDirtyEntries at h
  rw [List.mem_map] at h
  obtain ⟨p, hp, hpe⟩ := h
  have hp1 : p.1 = k := by
    have := congrArg Prod.fst hpe
    simpa using this
  have hpd : p ∈ c.data := List.mem_of_mem_filter hp
  have hsome : (c.data.find? (fun q => q.1 == k)).isSome :=
    List.find?_isSome.mpr ⟨p, hpd, by simp [hp1]⟩
  obtain ⟨q, hq⟩ := Option.isSome_iff_exists.mp hsome
  exact ⟨copyEntry q.2, by simp [Get, hq]⟩

end MemCache

/-! ### Encoder claims -/

/-- C5: for every unsigned 64-bit integer `x`, the generic base-62
primitive round-trips exactly: `fromBase62 (toBase62 x) = x`. -/
theorem claim_base62_roundtrip (x : Nat) (hx : x < 2 ^ 64) :
    fromBase62 (toBase62 x) = x := by
  unfold toBase62
  by_cases hz : x = 0
  · simp [hz, fromBase62, fromBase62Digit]
  · rw [if_neg hz]
    exact fromBase62_toBase62Digits x

/-- Witness for C5 at the concrete input `123456789`. -/
theorem claim_base62_roundtrip_witness :
    (123456789 : Nat) < 2 ^ 64 ∧ fromBase62 (toBase62 123456789) = 123456789 :=
  ⟨by norm_num, claim_base62_roundtrip 123456789 (by norm_num)⟩

/-- C6: for every 64-bit input, `encodeCounter` yields exactly 7
characters, each drawn from the 62-symbol alphabet `base62Chars`. -/
theorem claim_encode_length_alphabet (v : Nat) (hv : v < 2 ^ 64) :
    (encodeCounter v).length = 7 ∧ ∀ c ∈ encodeCounter v, c ∈ base62Chars.data := by
  have hkey : encodeCounter v =
      toBase62 (obfuscateValue v % (maxVal - minVal + 1) + minVal) := rfl
  set f := obfuscateValue v % (maxVal - minVal + 1) + minVal with hfdef
  have hlow : 62 ^ 6 ≤ f := by
    have h1 : (62 : Nat) ^ 6 = minVal := by norm_num [minVal]
    rw [h1]
    exact Nat.le_add_left _ _
  have hhigh : f < 62 ^ 7 := by
    have hmod : obfuscateValue v % (maxVal - minVal + 1) < maxVal - minVal + 1 :=
      Nat.mod_lt _ (by norm_num [minVal, maxVal])
    have h2 : maxVal - minVal + 1 + minVal = 62 ^ 7 := by norm_num [minVal, maxVal]
    omega
  have hz : f ≠ 0 := by
    have : (0 : Nat) < 62 ^ 6 := by norm_num
    omega
  have hdig : encodeCounter v = toBase62Digits f := by
    rw [hkey]
    unfold toBase62
    rw [if_neg hz]
  rw [hdig]
  exact ⟨toBase62Digits_length 6 f hlow (by simpa using hhigh), toBase62Digits_mem f⟩

/-- Witness for C6 at the concrete input `1`. -/
theorem claim_encode_length_alphabet_witness :
    (1 : Nat) < 2 ^ 64 ∧
      ((encodeCounter 1).length = 7 ∧ ∀ c ∈ encodeCounter 1, c ∈ base62Chars.data) :=
  ⟨by norm_num, claim_encode_length_alphabet 1 (by norm_num)⟩

/-- C3: the upper 32 bits of every `obfuscateValue` output are the
bit-reversal of its lower 32 bits; hence the image of the whole 64-bit
domain has at most `2 ^ 32` elements (for the obfuscation and for the
7-character codes), and the map is not injective: `111173 ≠ 155018`
collide, both as obfuscated words and as short codes. -/
theorem claim_obfuscate_halves_and_collision :
    (∀ v : Nat, obfuscateValue v >>> 32 = reverse32 (obfuscateValue v &&& 0xFFFFFFFF))
    ∧ ((Finset.range (2 ^ 64)).image obfuscateValue).card ≤ 2 ^ 32
    ∧ ((Finset.range (2 ^ 64)).image encodeCounter).card ≤ 2 ^ 32
    ∧ (111173 : Nat) ≠ 155018
    ∧ obfuscateValue 111173 = obfuscateValue 155018
    ∧ encodeCounter 111173 = encodeCounter 155018 := by
  have hhalves : ∀ v : Nat,
      obfuscateValue v >>> 32 = reverse32 (obfuscateValue v &&& 0xFFFFFFFF) := by
    intro v
    rw [Nat.shiftRight_eq_div_pow, obfuscateValue_div,
      show (0xFFFFFFFF : Nat) = 2 ^ 32 - 1 from rfl,
      Nat.and_pow_two_sub_one_eq_mod, obfuscateValue_mod]
  have hdecomp : ∀ v : Nat,
      obfuscateValue v =
        (fun h => reverse32 h <<< 32 ||| h) (obfuscateValue v % 2 ^ 32) := by
    intro v
    rw [obfuscateValue_mod]
    exact obfuscateValue_as_halves v
  have hsub : (Finset.range (2 ^ 64)).image obfuscateValue ⊆
      (Finset.range (2 ^ 32)).image (fun h => reverse32 h <<< 32 ||| h) := by
    intro z hz
    simp only [Finset.mem_image, Finset.mem_range] at hz ⊢
    obtain ⟨v, _, rfl⟩ := hz
    exact ⟨obfuscateValue v % 2 ^ 32, Nat.mod_lt _ (by norm_num), (hdecomp v).symm⟩
  have hobfcard : ((Finset.range (2 ^ 64)).image obfuscateValue).card ≤ 2 ^ 32 := by
    calc ((Finset.range (2 ^ 64)).image obfuscateValue).card
        ≤ ((Finset.range (2 ^ 32)).image (fun h => reverse32 h <<< 32 ||| h)).card :=
          Finset.card_le_card hsub
      _ ≤ (Finset.range (2 ^ 32)).card := Finset.card_image_le
      _ = 2 ^ 32 := Finset.card_range _
  refine ⟨hhalves, hobfcard, ?_, by norm_num, by decide, by decide⟩
  have hcomp : (Finset.range (2 ^ 64)).image encodeCounter =
      ((Finset.range (2 ^ 64)).image obfuscateValue).image
        (fun z => toBase62 (z % (maxVal - minVal + 1) + minVal)) := by
    rw [Finset.image_image]
    rfl
  calc ((Finset.range (2 ^ 64)).image encodeCounter).card
      = (((Finset.range (2 ^ 64)).image obfuscateValue).image
          (fun z => toBase62 (z % (maxVal - minVal + 1) + minVal))).card := by
        rw [hcomp]
    _ ≤ ((Finset.range (2 ^ 64)).image obfuscateValue).card := Finset.card_image_le
    _ ≤ 2 ^ 32 := hobfcard

/-- Witness for C3: the half-relation instantiated at the concrete
input `3`. -/
theorem claim_obfuscate_halves_and_collision_witness :
    obfuscateValue 3 >>> 32 = reverse32 (obfuscateValue 3 &&& 0xFFFFFFFF) :=
  claim_obfuscate_halves_and_collision.1 3

/-- C10 counterexample: at input `1` the code's encoder disagrees with the
spec's seven-step algorithm read literally (step 5 leaving the upper 32
bits untouched): the code yields `ZYhhlfA`, the literal spec `yrbgp69`. -/
theorem claim_seven_step_counterexample :
    encodeCounter 1 ≠ specEncodeSeven 1 ∧
      encodeCounter 1 = "ZYhhlfA".data ∧ specEncodeSeven 1 = "yrbgp69".data := by
  refine ⟨by decide, by decide, by decide⟩

/-- C10 amended: the encoder computes the spec's seven-step algorithm with
step 5 amended so that the bit-reversed lower half becomes the upper half
and the previous upper half becomes the lower half. -/
theorem claim_seven_step_amended (v : Nat) :
    encodeCounter v = specEncodeSevenSwapped v := by
  show toBase62 _ = toBase62 _
  congr 1

theorem getNextN_values (key : String) :
    ∀ (n : Nat) (c : CounterCache), 1 ≤ c.jumpAhead → entryInv c key →
      -(2 ^ 63) ≤ highWater c key →
      highWater c key + (n : Int) + c.jumpAhead ≤ 2 ^ 63 →
      (getNextN c key n).1 =
        (List.range n).map (fun i : Nat => highWater c key + 1 + (i : Int)) := by
  intro n
  induction n with
  | zero => intro c _ _ _ _; rfl
  | succ n ih =>
    intro c hstep hinv hlow hsafe
    obtain ⟨hval, hhw, hinv', hj, hdb⟩ :=
      GetNextCounter_step c key hstep hinv hlow (by push_cast at hsafe; omega)
    show (GetNextCounter c key).1 :: (getNextN (GetNextCounter c key).2 key n).1 = _
    rw [hval, ih (GetNextCounter c key).2 (by rw [hj]; exact hstep) hinv'
        (by rw [hhw]; omega)
        (by rw [hhw, hj]; push_cast at hsafe ⊢; omega),
      hhw, List.range_succ_eq_map, List.map_cons, List.map_map]
    congr 1
    · norm_num
    · refine List.map_congr_left fun i _ => ?_
      show highWater c key + 1 + 1 + (i : Int) = highWater c key + 1 + ((i + 1 : Nat) : Int)
      push_cast
      ring

/-- C1 amended: `n` successive `GetNextCounter` calls for one key
(step ≥ 1, the `current ≤ ceiling` invariant at that key, no intervening
`SetCounter`), provided the run stays within `int64` — the prior
high-water mark `h` satisfies `-2^63 ≤ h` and `h + n + step ≤ 2^63`, so
no `int64` overflow occurs — return exactly `h + 1, …, h + n`: pairwise
distinct, strictly increasing, contiguous, each call one more than the
previous high-water mark. -/
theorem claim_counter_run (c : CounterCache) (key : String) (n : Nat)
    (hstep : 1 ≤ c.jumpAhead) (hinv : entryInv c key)
    (hlow : -(2 ^ 63) ≤ highWater c key)
    (hsafe : highWater c key + (n : Int) + c.jumpAhead ≤ 2 ^ 63) :
    (getNextN c key n).1 =
      (List.range n).map (fun i : Nat => highWater c key + 1 + (i : Int)) ∧
    ((getNextN c key n).1).Pairwise (· ≠ ·) := by
  have h := getNextN_values key n c hstep hinv hlow hsafe
  refine ⟨h, ?_⟩
  rw [h, List.pairwise_map]
  exact (List.pairwise_lt_range n).imp (by intro a b hab; omega)

/-- Witness for C1 (amended): three calls on a fresh allocator with
step 1. -/
theorem claim_counter_run_witness :
    (1 : Int) ≤ counterDemo0.jumpAhead ∧ entryInv counterDemo0 "k" ∧
    -(2 ^ 63) ≤ highWater counterDemo0 "k" ∧
    highWater counterDemo0 "k" + ((3 : Nat) : Int) + counterDemo0.jumpAhead ≤ 2 ^ 63 ∧
      ((getNextN counterDemo0 "k" 3).1 =
        (List.range 3).map (fun i : Nat => highWater counterDemo0 "k" + 1 + (i : Int)) ∧
      ((getNextN counterDemo0 "k" 3).1).Pairwise (· ≠ ·)) :=
  ⟨le_refl 1, fun e he => by simp [counterDemo0] at he, by decide, by decide,
    claim_counter_run counterDemo0 "k" 3 (le_refl 1)
      (fun e he => by simp [counterDemo0] at he) (by decide) (by decide)⟩

/-- C1 counterexample: at the `int64` boundary the Go arithmetic wraps.
With step 1 and the invariant holding at `current = allocated = 2^63−1`,
the next call returns `-2^63`, not `highWater + 1`: the returned run is
neither contiguous from the prior high-water mark nor increasing. -/
theorem claim_counter_run_counterexample :
    (1 : Int) ≤ counterDemoMax.jumpAhead ∧
    entryInv counterDemoMax "k" ∧
    highWater counterDemoMax "k" = 2 ^ 63 - 1 ∧
    (getNextN counterDemoMax "k" 1).1 = [-(2 ^ 63)] ∧
    (getNextN counterDemoMax "k" 1).1 ≠ [highWater counterDemoMax "k" + 1] := by
  refine ⟨by decide, ?_, by decide, by decide, by decide⟩
  intro e he
  have h2 : some (⟨2 ^ 63 - 1, 2 ^ 63 - 1, false⟩ : cacheEntry) = some e := by
    rw [← he]
    simp [counterDemoMax]
  injection h2 with h3
  rw [← h3]

theorem GetNextCounter_other (c : CounterCache) (key k : String) (hk : k ≠ key) :
    (GetNextCounter c key).2.counters k = c.counters k := by
  simp [GetNextCounter, hk]

theorem GetNextCounter_cacheInv (c : CounterCache) (key : String)
    (hstep : 1 ≤ c.jumpAhead) (hlow : -(2 ^ 63) ≤ highWater c key)
    (hsafe : highWater c key + 1 + c.jumpAhead ≤ 2 ^ 63) (hinv : cacheInv c) :
    cacheInv (GetNextCounter c key).2 := by
  intro k e he
  by_cases hk : k = key
  · subst hk
    exact (GetNextCounter_step c k hstep (hinv k) hlow hsafe).2.2.1 e he
  · rw [GetNextCounter_other c key k hk] at he
    exact hinv k e he

theorem SetCounter_cacheInv (c : CounterCache) (key : String) (value : Int)
    (hstep : 1 ≤ c.jumpAhead) (hvlow : -(2 ^ 63) ≤ value)
    (hvsafe : value + c.jumpAhead < 2 ^ 63) (hinv : cacheInv c) :
    cacheInv (SetCounter c key value) := by
  intro k e he
  by_cases hk : k = key
  · subst hk
    simp [SetCounter] at he
    subst he
    show value ≤ wrap64 (value + c.jumpAhead)
    rw [wrap64_eq _ (by omega) (by omega)]
    omega
  · simp [SetCounter, hk] at he
    exact hinv k e he

theorem GetNextCounter_ceilingLE (c : CounterCache) (key : String)
    (hstep : 1 ≤ c.jumpAhead) (hlow : -(2 ^ 63) ≤ highWater c key)
    (hsafe : highWater c key + 1 + c.jumpAhead ≤ 2 ^ 63) (hinv : cacheInv c) :
    ceilingLE c (GetNextCounter c key).2 := by
  intro k e he
  by_cases hk : k = key
  · subst hk
    have hW : highWater c k = e.current := by simp [highWater, he]
    rw [hW] at hlow hsafe
    have hce := hinv k e he
    by_cases hbump : e.allocated ≤ e.current
    · have heq : e.current = e.allocated := le_antisymm hce hbump
      have w1 : wrap64 (e.allocated + c.jumpAhead) = e.allocated + c.jumpAhead :=
        wrap64_eq _ (by omega) (by omega)
      simp [GetNextCounter, he, hbump, w1]
      omega
    · simp [GetNextCounter, he, hbump]
  · exact ⟨e, by rw [GetNextCounter_other c key k hk]; exact he, le_refl _⟩

/-- C2 counterexample: with step 1, two `GetNextCounter` calls raise the
ceiling of `"k"` to 2; `SetCounter "k" 0` then resets it to
`0 + step = 1`, strictly below the previously reached ceiling, so the
ceiling is not monotonically non-decreasing across mixed operations. -/
theorem claim_ceiling_monotone_counterexample :
    ((getNextN counterDemo0 "k" 2).2.counters "k").map cacheEntry.allocated
        = some 2 ∧
    ((SetCounter (getNextN counterDemo0 "k" 2).2 "k" 0).counters "k").map
        cacheEntry.allocated = some 1 ∧
    ¬ ((2 : Int) ≤ 1) := by
  decide

/-- C2 amended: with step ≥ 1, every `GetNextCounter` call whose `int64`
arithmetic does not overflow (high-water mark `h ≥ -2^63` and
`h + 1 + step ≤ 2^63`) preserves `current ≤ ceiling` at every key and
never lowers any key's ceiling; a `SetCounter key value` call whose
ceiling computation does not overflow (`value ≥ -2^63` and
`value + step < 2^63`) preserves `current ≤ ceiling`; but `SetCounter`
resets the key's ceiling to `value + step`, which can lie below a
previously reached ceiling. -/
theorem claim_invariant_ceiling_amended :
    (∀ (c : CounterCache) (key : String),
        1 ≤ c.jumpAhead → -(2 ^ 63) ≤ highWater c key →
        highWater c key + 1 + c.jumpAhead ≤ 2 ^ 63 → cacheInv c →
        cacheInv (GetNextCounter c key).2 ∧ ceilingLE c (GetNextCounter c key).2)
    ∧ (∀ (c : CounterCache) (key : String) (value : Int),
        1 ≤ c.jumpAhead → -(2 ^ 63) ≤ value → value + c.jumpAhead < 2 ^ 63 →
        cacheInv c → cacheInv (SetCounter c key value)) :=
  ⟨fun c key h1 h2 h3 h4 =>
      ⟨GetNextCounter_cacheInv c key h1 h2 h3 h4,
        GetNextCounter_ceilingLE c key h1 h2 h3 h4⟩,
    fun c key value h1 h2 h3 h4 => SetCounter_cacheInv c key value h1 h2 h3 h4⟩

/-- Witness for C2 (amended): both parts applied to a fresh step-1
allocator at concrete inputs. -/
theorem claim_invariant_ceiling_amended_witness :
    (cacheInv (GetNextCounter counterDemo0 "k").2 ∧
      ceilingLE counterDemo0 (GetNextCounter counterDemo0 "k").2) ∧
    cacheInv (SetCounter counterDemo0 "k" 5) :=
  ⟨claim_invariant_ceiling_amended.1 counterDemo0 "k" (le_refl 1) (by decide)
      (by decide) (fun key e he => by simp [counterDemo0] at he),
    claim_invariant_ceiling_amended.2 counterDemo0 "k" 5 (le_refl 1) (by decide)
      (by decide) (fun key e he => by simp [counterDemo0] at he)⟩

/-- C4 counterexample: with step 10 against an empty durable store, the
code enqueues TWO durable writes no later than the 11th call — value 10
during the 1st call (the initial reservation) and value 20 during the
11th — not exactly one. -/
theorem claim_first_batch_counterexample :
    (getNextN counterDemoStep10 "k" 11).2.writebacks = [("k", 10), ("k", 20)] ∧
    ¬ ((getNextN counterDemoStep10 "k" 11).2.writebacks.length = 1) := by
  decide

/-- C4 amended: with step 10 against an empty durable store, the first 10
calls return 1..10 in order with exactly one durable write (value 10,
enqueued at the first call); the 11th call returns 11 and enqueues the
second durable write, with value 20. -/
theorem claim_first_batch_amended :
    (getNextN counterDemoStep10 "k" 10).1 =
        [1, 2, 3, 4, 5, 6, 7, 8, 9, 10] ∧
    (getNextN counterDemoStep10 "k" 1).2.writebacks = [("k", 10)] ∧
    (getNextN counterDemoStep10 "k" 10).2.writebacks = [("k", 10)] ∧
    (getNextN counterDemoStep10 "k" 11).1 =
        [1, 2, 3, 4, 5, 6, 7, 8, 9, 10, 11] ∧
    (getNextN counterDemoStep10 "k" 11).2.writebacks = [("k", 10), ("k", 20)] := by
  decide

/-- C7 counterexample: bulk-loading an input whose entry for `"a"`
carries `dirty = true` leaves that entry dirty in the cache (and erases
the prior entry), so loaded entries do not start clean regardless of the
input dirty flag. -/
theorem claim_load_data_counterexample :
    (MemCache.LoadData ⟨[("old", ⟨"o", 0, 0, false⟩)]⟩ memLoadInput).Get "old" = none ∧
    (MemCache.LoadData ⟨[("old", ⟨"o", 0, 0, false⟩)]⟩ memLoadInput).Get "a" =
      some ⟨"u", 3, 5, true⟩ ∧
    ((MemCache.LoadData ⟨[("old", ⟨"o", 0, 0, false⟩)]⟩ memLoadInput).Get "a").map
        CacheEntry.dirty ≠ some false := by
  decide

/-- C7 amended: `LoadData` wholesale-replaces the cache contents with
copies of exactly the entries of the input mapping — every prior entry is
gone — and each loaded entry keeps the dirty flag it carried in the
input (it is not forced clean). -/
theorem claim_load_data_amended (c : MemCache)
    (input : List (String × CacheEntry)) (k : String) :
    (MemCache.LoadData c input).Get k =
      (input.find? (fun p => p.1 == k)).map (fun p => p.2) := by
  unfold MemCache.Get
  rw [MemCache.LoadData_data]
  cases input.find? (fun p => p.1 == k) <;> rfl

/-- C9 counterexample: at the `int64` boundary the Go `int` increment
wraps: an entry with `usageCount = 2^63 − 1` goes to `-2^63`, not to
`usageCount + 1`, so `IncrementUsage` does not increment by exactly 1 on
every present entry. -/
theorem claim_increment_usage_counterexample :
    memMaxDemo.Get "m" = some ⟨"u", 2 ^ 63 - 1, 0, false⟩ ∧
    (memMaxDemo.IncrementUsage "m" 7).Get "m" = some ⟨"u", -(2 ^ 63), 7, true⟩ ∧
    (-(2 ^ 63) : Int) ≠ (2 ^ 63 - 1) + 1 := by
  decide

/-- C9 amended: `IncrementUsage` on an absent key returns no error (it is
total) and leaves the cache unchanged; on a present key it sets that
entry's `usageCount` to the two's-complement `int64` wrap of
`usageCount + 1` — an increment by exactly 1 whenever
`-2^63 ≤ usageCount < 2^63 − 1` — sets `lastUsedAt` to the current time,
sets the dirty flag, and leaves every other key unchanged. -/
theorem claim_increment_usage (c : MemCache) (k : String) (now : Int) :
    (c.Get k = none → c.IncrementUsage k now = c) ∧
    (∀ e, c.Get k = some e →
      (c.IncrementUsage k now).Get k =
        some { e with usageCount := wrap64 (e.usageCount + 1), lastUsedAt := now, dirty := true } ∧
      (-(2 ^ 63) ≤ e.usageCount → e.usageCount + 1 < 2 ^ 63 →
        (c.IncrementUsage k now).Get k =
          some { e with usageCount := e.usageCount + 1, lastUsedAt := now, dirty := true }) ∧
      ∀ k', k' ≠ k → (c.IncrementUsage k now).Get k' = c.Get k') := by
  constructor
  · intro habsent
    have hnone : c.data.find? (fun p => p.1 == k) = none := by
      unfold MemCache.Get at habsent
      cases h : c.data.find? (fun p => p.1 == k) with
      | none => rfl
      | some p => rw [h] at habsent; simp at habsent
    obtain ⟨data⟩ := c
    have hall := List.find?_eq_none.mp hnone
    show MemCache.mk _ = MemCache.mk data
    congr 1
    calc data.map (fun p =>
          if p.1 == k then
            (p.1, { p.2 with usageCount := wrap64 (p.2.usageCount + 1), lastUsedAt := now, dirty := true })
          else p)
        = data.map id := List.map_congr_left (fun p hp => by
            rw [if_neg (by simpa using hall p hp)]
            rfl)
      _ = data := List.map_id data
  · intro e he
    obtain ⟨p₀, hp₀, hpe⟩ : ∃ p₀, c.data.find? (fun p => p.1 == k) = some p₀ ∧
        copyEntry p₀.2 = e := by
      unfold MemCache.Get at he
      cases h : c.data.find? (fun p => p.1 == k) with
      | none => rw [h] at he; simp at he
      | some p => rw [h] at he; simp at he; exact ⟨p, rfl, he⟩
    have hmain : (c.IncrementUsage k now).Get k =
        some { e with usageCount := wrap64 (e.usageCount + 1), lastUsedAt := now, dirty := true } := by
      unfold MemCache.Get MemCache.IncrementUsage
      rw [MemCache.find?_map_ifkey c.data k (fun q =>
        { q.2 with usageCount := wrap64 (q.2.usageCount + 1), lastUsedAt := now, dirty := true }), hp₀]
      rw [copyEntry_eq] at hpe
      subst hpe
      rfl
    refine ⟨hmain, ?_, ?_⟩
    · intro hclow hchigh
      rw [hmain, wrap64_eq _ (by omega) (by omega)]
    · intro k' hk'
      unfold MemCache.Get MemCache.IncrementUsage
      rw [MemCache.find?_map_ifkey_ne c.data k k' hk' (fun q =>
        { q.2 with usageCount := wrap64 (q.2.usageCount + 1), lastUsedAt := now, dirty := true })]

/-- Witness for C9 (amended): all three branches at concrete caches — the
present key `"abc"` (no overflow) is bumped by exactly 1 and stamped, the
other key `"zzz"` is untouched, and `IncrementUsage` on an absent key
leaves the cache unchanged. -/
theorem claim_increment_usage_witness :
    memDemo.Get "abc" = some ⟨"https://example.com", 3, 5, false⟩ ∧
    (memDemo.IncrementUsage "abc" 9).Get "abc" =
      some ⟨"https://example.com", 4, 9, true⟩ ∧
    (memDemo.IncrementUsage "abc" 9).Get "zzz" = memDemo.Get "zzz" ∧
    memDemo.IncrementUsage "zzz" 9 = memDemo :=
  ⟨by decide,
    ((claim_increment_usage memDemo "abc" 9).2 ⟨"https://example.com", 3, 5, false⟩
      (by decide)).2.1 (by decide) (by decide),
    ((claim_increment_usage memDemo "abc" 9).2 ⟨"https://example.com", 3, 5, false⟩
      (by decide)).2.2 "zzz" (by decide),
    (claim_increment_usage memDemo "zzz" 9).1 (by decide)⟩

/-- C8: a flush cycle is atomic with respect to the dirty flags: when
`syncFn` rejects the collected batch the state is unchanged (every batch
entry stays dirty for the next tick); when `syncFn` accepts it, every
entry of the batch is marked clean. -/
theorem claim_sync_atomic (c : MemCache)
    (syncFn : List (String × CacheEntry) → Bool) :
    (syncFn c.GetDirtyEntries = false → c.syncToDatabase syncFn = c) ∧
    (syncFn c.GetDirtyEntries = true →
      ∀ k e, (k, e) ∈ c.GetDirtyEntries →
        ((c.syncToDatabase syncFn).Get k).map CacheEntry.dirty = some false) := by
  constructor
  · intro hfail
    unfold MemCache.syncToDatabase
    by_cases hlen : c.GetDirtyEntries.length = 0
    · simp [hlen]
    · simp [hlen, hfail]
  · intro hok k e hmem
    unfold MemCache.syncToDatabase
    have hlen : ¬ c.GetDirtyEntries.length = 0 := by
      intro h0
      rw [List.length_eq_zero] at h0
      rw [h0] at hmem
      simp at hmem
    simp only [if_neg hlen, hok, if_true]
    have hk : k ∈ c.GetDirtyEntries.map Prod.fst :=
      List.mem_map.mpr ⟨(k, e), hmem, rfl⟩
    rw [MemCache.Get_foldl_MarkClean_mem _ _ _ hk]
    obtain ⟨e₀, he₀⟩ := MemCache.GetDirtyEntries_mem_get c k e hmem
    rw [he₀]
    rfl

/-- Witness for C8: on a cache with one dirty entry, a failing `syncFn`
leaves the state unchanged and a succeeding one leaves the entry clean. -/
theorem claim_sync_atomic_witness :
    memDirtyDemo.syncToDatabase (fun _ => false) = memDirtyDemo ∧
    ((memDirtyDemo.syncToDatabase (fun _ => true)).Get "a").map CacheEntry.dirty =
      some false :=
  ⟨(claim_sync_atomic memDirtyDemo (fun _ => false)).1 rfl,
    (claim_sync_atomic memDirtyDemo (fun _ => true)).2 rfl "a"
      ⟨"https://a.example", 1, 0, true⟩ (by decide)⟩

end UrlShortener
